/-
Verification of the arnab SQL pipeline (src/src/session.rs, src/src/node.rs)
against its natural-language specification.

Shallow embedding notes:
* Strings are Lean `String` (sequences of Unicode scalar values); where the
  Rust code indexes by UTF-8 bytes we model byte positions explicitly via
  `Char.utf8Size`.
* The external collaborators (duckdb connection, sqlparser-based reference
  extraction, minijinja rendering) are modelled as explicit oracle
  parameters (`Conn`, `RenderEnv`); `Option`/`Except` model Rust panics
  (`unwrap`) and `Result` errors.
* `HashMap` / `HashSet` iteration order is arbitrary in Rust; sets are
  modelled as lists whose order stands for the (unspecified) iteration
  order, deduplicated where the Rust type guarantees uniqueness.
* The unbounded recursion of `topo` (session.rs) is modelled with explicit
  fuel: `none` models a non-terminating / stack-overflowing run.
-/
import Mathlib

namespace Arnab

/-- Mirror of `Node` (node.rs).  `nexts` is not stored: it is derived from
the `prevs` sets exactly as the population loop in `Session::run`
(session.rs lines 124-144) computes it, see `terminalIds` below.
`node_type` has a single variant (`Sql`) and is omitted. -/
structure Node where
  path : String
  id : String
  raw_src : String
  rendered_src : String
  prevs : List String
  materialize : Option String
deriving DecidableEq

/-- Lookup `node_map.get(id)`: first node with the given id (ids are unique in the
Rust `HashMap`; theorems carry a `Nodup` hypothesis). -/
def findNode (g : List Node) (i : String) : Option Node :=
  g.find? (fun n => n.id == i)

/-- The ids registered in the node map. -/
def idsOf (g : List Node) : List String := g.map Node.id

/-- The `depends_on` set of a registered id (empty for unknown ids). -/
def prevsOf (g : List Node) (i : String) : List String :=
  (findNode g i).elim [] Node.prevs

/-- Relation: `m` directly depends on `p` (edge `m depends_on p`). -/
def Dep (g : List Node) (m p : String) : Prop := p ∈ prevsOf g m

/-- The `depends_on` relation has no (nonempty) cycle. -/
def Acyclic (g : List Node) : Prop :=
  ∀ i, ¬ Relation.TransGen (Dep g) i i

/-- Terminal ids: nodes with no incoming `nexts` edge, i.e. no registered
node lists them among its `prevs` (session.rs lines 148-152; the stored
`nexts` sets are populated only from `prevs` of registered nodes). -/
def terminalIds (g : List Node) : List String :=
  (g.filter (fun n => decide (∀ m ∈ g, n.id ∉ m.prevs))).map Node.id

/-- Run a fallible accumulator step over a list, threading the accumulator
(the shape of both the `for prev_id in prevs` loop inside `topo` and the
`for t_id in terminal_ids` loop in `Session::run`). -/
def runList (f : String → List String → Option (List String)) :
    List String → List String → Option (List String)
  | [], out => some out
  | p :: ps, out =>
    match f p out with
    | none => none
    | some out' => runList f ps out'

/-- Mirror of `topo` (session.rs lines 252-262) with explicit fuel.  The Rust code
returns early when `out.contains(root_id)`, panics on a missing id
(`&nodes[root_id]`), otherwise recurses into every `prev` and finally
pushes `root`.  `none` models non-termination (fuel exhausted) or panic. -/
def topoF (g : List Node) : Nat → String → List String → Option (List String)
  | 0 => fun _ _ => none
  | fuel + 1 => fun root out =>
    if root ∈ out then some out
    else
      match findNode g root with
      | none => none
      | some node => (runList (topoF g fuel) node.prevs out).map (fun l => l ++ [root])

/-- The schedule of `Session::run` (lines 154-158): fold `topo` over all
terminal ids starting from the empty output list. -/
def scheduleF (g : List Node) (fuel : Nat) : Option (List String) :=
  runList (topoF g fuel) (terminalIds g) []

/-! ## Execution engine (node.rs) -/

deriving instance DecidableEq for Except

/-- Mirror of `ArnabError` (errors.rs), restricted to the variants the
execution path produces.  `statementExecutionError` fields follow the Rust
struct: `msg`, `path`, `sql`. -/
inductive ArnabError where
  | error (msg : String)
  | statementExecutionError (msg : String) (path : String) (sql : String)
deriving DecidableEq

/-- Mirror of `NodeExecutionResult` (node.rs). -/
inductive NodeExecutionResult where
  | sql (n_rows : Nat)
deriving DecidableEq

/-- One call made against the duckdb connection: `conn.execute` of a
statement, or `conn.prepare`/`query` of a row-count query. -/
inductive DbCall where
  | exec (sql : String)
  | count (sql : String)
deriving DecidableEq

/-- The duckdb connection as a response oracle.  `execute s` is the outcome
of `conn.execute(&s, [])` (`Err` carries `e.to_string()`); `countRows q` is
`none` when `conn.prepare(&q)` fails (the code silently skips the count
then) and `some n` when the prepared count query yields `n`. -/
structure Conn where
  execute : String → Except String Unit
  countRows : String → Option Nat

/-- Total UTF-8 byte length of a character list (Rust `str::len`). -/
def byteLen (l : List Char) : Nat := (l.map Char.utf8Size).sum

/-- Take exactly `n` UTF-8 bytes worth of characters from the front;
`none` when byte position `n` falls strictly inside a character, which is
where Rust's `statement[..n]` slicing panics ("byte index is not a char
boundary"). -/
def takeBytes : Nat → List Char → Option (List Char)
  | 0, _ => some []
  | _ + 1, [] => none
  | n + 1, c :: cs =>
    if c.utf8Size ≤ n + 1 then
      (takeBytes (n + 1 - c.utf8Size) cs).map (fun l => c :: l)
    else none

/-- Mirror of `Node::will_produce_records` (node.rs lines 110-121): slice the first
`50.min(len)` BYTES of the statement, uppercase, and test for the starting
words `SELECT` / `WITH`.  `none` models the byte-slice panic.  Uppercasing
is modelled per `Char` (`Char.toUpper`), which agrees with Rust's
`to_uppercase` on ASCII; multi-character Unicode upper-casings (e.g.
U+017F to `S`) are not modelled. -/
def will_produce_records (statement : String) : Option Bool :=
  (takeBytes (min 50 (byteLen statement.data)) statement.data).map
    (fun pre =>
      let up : List Char := pre.map Char.toUpper
      "SELECT".data.isPrefixOf up || "WITH".data.isPrefixOf up)

/-- Split a character list at every occurrence of `sep` (Rust
`str::split(sep)`): `"a;;b"` gives `["a", "", "b"]`, `""` gives `[""]`.
(Lean's own `String.splitOn` is not used because it does not reduce in the
kernel.) -/
def charSplit (sep : Char) : List Char → List (List Char)
  | [] => [[]]
  | c :: cs =>
    match charSplit sep cs with
    | [] => [[c]]
    | h :: t => if c = sep then [] :: h :: t else (c :: h) :: t

/-- Rust `str::trim`: strip leading and trailing whitespace.  Modelled
with `Char.isWhitespace` (space, tab, CR, LF); Rust additionally strips
rarer Unicode White_Space characters, which no claim exercises. -/
def trimChars (l : List Char) : List Char :=
  ((l.dropWhile Char.isWhitespace).reverse.dropWhile Char.isWhitespace).reverse

/-- Rust `str::to_lowercase`, modelled per `Char` (agrees on ASCII). -/
def lowerStr (s : String) : String := ⟨s.data.map Char.toLower⟩

/-- Split `rendered_src` on `;`, trim each fragment, drop empty ones
(node.rs lines 124-129). -/
def splitStatements (src : String) : List String :=
  (((charSplit ';' src.data).map trimChars).filter (fun s => s ≠ [])).map
    (fun l => ⟨l⟩)

/-- The filter building `statements_returning_records` (node.rs lines
133-136); `none` models a classification panic on some fragment. -/
def filterRecordProducing : List String → Option (List String)
  | [] => some []
  | s :: rest => do
    let b ← will_produce_records s
    let r ← filterRecordProducing rest
    pure (if b then s :: r else r)

/-- The statement-count validation error message (node.rs line 140),
including the source's typo "recods". -/
def countErrorMsg (id : String) (n : Nat) : String :=
  "Models must have exactly one `SELECT` statement (or equivalent statements returning recods), but "
    ++ id ++ " has " ++ toString n

/-- The materialization rewrite of one fragment (node.rs lines 148-170):
record-producing fragments are wrapped into CREATE OR REPLACE VIEW/TABLE
according to `materialize.to_lowercase()` (default view); other fragments
pass through verbatim.  Unknown materialization values are a
model-definition error. -/
def adjustStatement (node : Node) (stmt : String) (producesRecords : Bool) :
    Except ArnabError String :=
  if producesRecords then
    match node.materialize with
    | some m =>
      if lowerStr m = "table" then
        .ok ("CREATE OR REPLACE TABLE " ++ node.id ++ " AS (" ++ stmt ++ ")")
      else if lowerStr m = "view" then
        .ok ("CREATE OR REPLACE VIEW " ++ node.id ++ " AS (" ++ stmt ++ ")")
      else .error (.error ("Unknown materialization type `" ++ m ++ "`"))
    | none => .ok ("CREATE OR REPLACE VIEW " ++ node.id ++ " AS (" ++ stmt ++ ")")
  else .ok stmt

/-- Byte-level substring test (Rust `str::contains`); on valid UTF-8 a
byte-level match always aligns with character boundaries, so the character
list infix test is equivalent. -/
def containsSubstr (hay pat : String) : Bool :=
  decide (pat.data <:+: hay.data)

/-- The statement loop of `execute_sql` (node.rs lines 147-202), carrying
`n_rows` and the trace of connection calls.  A failing `conn.execute`
whose message contains "No statement to prepare" is skipped (`continue`);
any other failure returns a `StatementExecutionError` built from the
engine message, the node's path, and the ORIGINAL (unadjusted) fragment.
After each successful execute with `materialize == Some("table")` (exact,
case-sensitive comparison) a row-count query is attempted. -/
def execLoop (node : Node) (conn : Conn) :
    List String → Nat → List DbCall →
    Option (Except ArnabError NodeExecutionResult × List DbCall)
  | [], n_rows, trace => some (.ok (.sql n_rows), trace)
  | stmt :: rest, n_rows, trace =>
    match will_produce_records stmt with
    | none => none
    | some b =>
      match adjustStatement node stmt b with
      | .error e => some (.error e, trace)
      | .ok adjusted =>
        match conn.execute adjusted with
        | .ok _ =>
          if node.materialize = some "table" then
            let count_sql := "SELECT COUNT(*) FROM " ++ node.id
            match conn.countRows count_sql with
            | some n => execLoop node conn rest n (trace ++ [.exec adjusted, .count count_sql])
            | none => execLoop node conn rest n_rows (trace ++ [.exec adjusted, .count count_sql])
          else
            execLoop node conn rest n_rows (trace ++ [.exec adjusted])
        | .error emsg =>
          if containsSubstr emsg "No statement to prepare" then
            execLoop node conn rest n_rows (trace ++ [.exec adjusted])
          else
            some (.error (.statementExecutionError emsg node.path stmt),
              trace ++ [.exec adjusted])

/-- Mirror of `Node::execute_sql` (node.rs lines 123-204): split, validate that
exactly one fragment is record-producing, then run the statement loop. -/
def executeSql (node : Node) (conn : Conn) :
    Option (Except ArnabError NodeExecutionResult × List DbCall) :=
  let statements := splitStatements node.rendered_src
  match filterRecordProducing statements with
  | none => none
  | some rp =>
    if rp.length ≠ 1 then
      some (.error (.error (countErrorMsg node.id rp.length)), [])
    else
      execLoop node conn statements 0 []

/-- The per-model half of the main pipeline loop (session.rs lines
175-225): every scheduled node is executed in order and its outcome is
collected; errors are accumulated, never propagated.  `none` models a
panic inside a node's execution aborting the process. -/
def runScheduled (conn : Conn) :
    List Node → Option (List (String × Except ArnabError NodeExecutionResult))
  | [] => some []
  | node :: rest => do
    let r ← executeSql node conn
    let rs ← runScheduled conn rest
    pure ((node.id, r.1) :: rs)

/-! ## Rendering and reference discovery (node.rs `render_and_populate_refs`,
session.rs discovery phase) -/

/-- Scan forward to just past the first `*/` (the non-greedy end of a block
comment); `none` when no `*/` occurs. -/
def findBlockClose : List Char → Option (List Char)
  | [] => none
  | c :: cs =>
    if c = '*' ∧ cs.head? = some '/' then some cs.tail
    else findBlockClose cs

/-- The block-comment removal `re.replace_all` with pattern
`/\*[\s\S]*?\*/` (node.rs lines 74-76): repeatedly delete from each `/*`
through the nearest following `*/`; a `/*` with no later `*/` matches
nothing and the remaining text is kept verbatim.  The fuel argument (the
initial list length, strictly decreasing across recursive calls) only
makes the recursion structural; the base case is unreachable. -/
def stripBlockAux : Nat → List Char → List Char
  | 0, l => l
  | _ + 1, [] => []
  | fuel + 1, c :: rest =>
    if c = '/' ∧ rest.head? = some '*' then
      match findBlockClose rest.tail with
      | some rest' => stripBlockAux fuel rest'
      | none => c :: rest
    else c :: stripBlockAux fuel rest

def stripBlockChars (l : List Char) : List Char := stripBlockAux l.length l

/-- Strip one-line comments (node.rs lines 66-72): drop every line whose
trimmed content starts with `--`, keep the other lines verbatim, re-join
with newlines. -/
def stripLineComments (s : String) : String :=
  ⟨List.intercalate ['\n']
    ((charSplit '\n' s.data).filter
      (fun l => !("--".data.isPrefixOf (trimChars l))))⟩

/-- Both comment-stripping passes, in source order (lines first, then
block comments). -/
def stripComments (s : String) : String :=
  ⟨stripBlockChars (stripLineComments s).data⟩

/-- Mirror of `macro_src_concat` (node.rs lines 80-87): all macro bodies joined with
newlines (in `HashMap::values` iteration order, modelled by the list
order), a newline, then the comment-stripped model body. -/
def concatSrc (bodies : List String) (rawNoComment : String) : String :=
  ⟨List.intercalate ['\n'] (bodies.map String.data) ++ '\n' :: rawNoComment.data⟩

/-- The external template/parsing collaborators as oracles.
`getRefs s` models `get_sql_references(&s)` (node.rs lines 208-229,
sqlparser-based; `none` is a parse failure, which the code `unwrap`s into
a panic).  `render s` models registering `s` as a minijinja template and
rendering it with an empty context (`none` is a template failure, also
`unwrap`ed). -/
structure RenderEnv where
  getRefs : String → Option (List String)
  render : String → Option String

/-- Mirror of `Node::render_and_populate_refs` (node.rs lines 61-106): strip
comments, prepend the macro bodies, collect the SQL references of the
UNRENDERED concatenation, keep those naming discovered models as `prevs`,
then render the same concatenation into `rendered_src`.  `none` models the
panics of the two `unwrap`s. -/
def render_and_populate_refs (env : RenderEnv) (bodies : List String)
    (all_model_names : List String) (n : Node) : Option Node :=
  let raw_no_comment := stripComments n.raw_src
  let src := concatSrc bodies raw_no_comment
  match env.getRefs src with
  | none => none
  | some refs =>
    let prevs := (refs.filter (fun v => all_model_names.contains v)).dedup
    match env.render src with
    | none => none
    | some rendered => some { n with prevs := prevs, rendered_src := rendered }

/-- The render loop of `Session::run` (session.rs lines 107-114): render
every discovered node against the full name universe. -/
def prepareNodes (env : RenderEnv) (bodies : List String)
    (names : List String) : List Node → Option (List Node)
  | [] => some []
  | n :: rest => do
    let n' ← render_and_populate_refs env bodies names n
    let rest' ← prepareNodes env bodies names rest
    pure (n' :: rest')

/-- Mirror of `invalid_node_ids` (session.rs lines 126-144): every `prev` reference
whose target is not in the node map. -/
def invalidIds (g : List Node) : List String :=
  (g.flatMap (fun n => n.prevs.filter (fun p => (findNode g p).isNone))).dedup

/-- The discovery-plus-scheduling prefix of `Session::run` (lines
107-165): render all nodes, topologically sort from the terminals, and
filter out invalid node ids. -/
def sessionSchedule (env : RenderEnv) (bodies : List String)
    (nodes : List Node) (fuel : Nat) : Option (List String) := do
  let g ← prepareNodes env bodies (nodes.map Node.id) nodes
  let s ← scheduleF g fuel
  pure (s.filter (fun v => !((invalidIds g).contains v)))

/-! ## Auxiliary predicates for the scheduler proofs -/

/-- Predicate: `l` is dependency-closed and ordered: wherever a model id occurs, all
its `prevs` occur strictly before it. -/
def ClosedOrdered (g : List Node) (l : List String) : Prop :=
  ∀ l₁ m l₂, l = l₁ ++ m :: l₂ → ∀ p ∈ prevsOf g m, p ∈ l₁

/-- The strict ancestors of `x`: ids that transitively depend on `x`. -/
def AncSet (g : List Node) (x : String) : Set String :=
  {z | Relation.TransGen (Dep g) z x}

/-- The descendants of `x`: everything `x` transitively depends on,
including `x` itself (the nodes the traversal from `x` visits). -/
def DescSet (g : List Node) (x : String) : Set String :=
  {z | Relation.ReflTransGen (Dep g) x z}

/-! ## Concrete instances used by witnesses and counterexamples -/

/-- Two-node registry: `b` depends on `a`. -/
def nodeA : Node := ⟨"models/a.sql", "a", "", "", [], none⟩

def nodeB : Node := ⟨"models/b.sql", "b", "", "", ["a"], none⟩

def gAB : List Node := [nodeA, nodeB]

/-- A connection on which every statement succeeds and every count query
prepares and yields 7 rows. -/
def connOk : Conn := ⟨fun _ => .ok (), fun _ => some 7⟩

/-- A connection on which every statement fails with an unrelated error. -/
def connErr : Conn := ⟨fun _ => .error "Catalog Error: boom", fun _ => none⟩

/-- A connection failing with the benign empty-statement engine message. -/
def connBenign : Conn := ⟨fun _ => .error "Invalid Input Error: No statement to prepare!", fun _ => none⟩

/-- Scan forward to just past the first jinja comment closer. -/
def findJinjaClose : List Char → Option (List Char)
  | [] => none
  | c :: cs =>
    if c = '#' ∧ cs.head? = some '\x7d' then some cs.tail
    else findJinjaClose cs

/-- Delete jinja comments (opener brace-hash through closer hash-brace),
the behaviour of minijinja template expansion on comment-only templates. -/
def stripJinjaAux : Nat → List Char → List Char
  | 0, l => l
  | _ + 1, [] => []
  | fuel + 1, c :: rest =>
    if c = '\x7b' ∧ rest.head? = some '#' then
      match findJinjaClose rest.tail with
      | some rest' => stripJinjaAux fuel rest'
      | none => c :: rest
    else c :: stripJinjaAux fuel rest

def renderJinja (s : String) : String := ⟨stripJinjaAux s.data.length s.data⟩

/-- Oracle behaving like minijinja/sqlparser on the counterexample inputs:
rendering strips jinja comments, and reference extraction fails (the
sqlparser `unwrap` panic) on any text still containing jinja comment
syntax, otherwise finds the table name `m2` iff it occurs in the text. -/
def envJinja : RenderEnv :=
  { getRefs := fun s =>
      if containsSubstr s "\x7b#" then none
      else if containsSubstr s "m2" then some ["m2"] else some []
    render := fun s => some (renderJinja s) }

/-- Oracle modelling sqlparser and minijinja on reference-free inputs.
The theorems consult it only on texts that are a well-formed query with no
table references (`SELECT 1`, possibly preceded by SQL `--` comment lines,
which the sqlparser tokenizer discards), where `get_sql_references`
really succeeds with the empty set, and on template-free texts, which
minijinja renders to themselves. -/
def envId : RenderEnv := ⟨fun _ => some [], fun s => some s⟩

/-! # Theorems -/

/-! ## C10: totality of the record-producing classifier -/

theorem utf8Size_one_of_ascii (c : Char) (h : c.toNat < 128) : c.utf8Size = 1 := by
  have hv : c.val ≤ (0x7F : UInt32) := by
    change c.val.toNat ≤ 127
    exact Nat.lt_succ_iff.mp h
  simp [Char.utf8Size, hv]

theorem byteLen_of_ascii {l : List Char} (h : ∀ c ∈ l, c.utf8Size = 1) :
    byteLen l = l.length := by
  induction l with
  | nil => rfl
  | cons c cs ih =>
    have hc := h c (List.mem_cons_self c cs)
    have ht := ih (fun x hx => h x (List.mem_cons_of_mem c hx))
    simp only [byteLen, List.map_cons, List.sum_cons, List.length_cons] at *
    omega

theorem takeBytes_of_ascii :
    ∀ (l : List Char) (n : Nat), (∀ c ∈ l, c.utf8Size = 1) → n ≤ l.length →
      takeBytes n l = some (l.take n) := by
  intro l
  induction l with
  | nil =>
    intro n _ hn
    have : n = 0 := Nat.le_zero.mp hn
    subst this
    rfl
  | cons c cs ih =>
    intro n h hn
    match n with
    | 0 => rfl
    | k + 1 =>
      have hc : c.utf8Size = 1 := h c (List.mem_cons_self c cs)
      have hk : k ≤ cs.length := by
        have := hn
        simp only [List.length_cons] at this
        omega
      simp [takeBytes, hc, ih k (fun x hx => h x (List.mem_cons_of_mem c hx)) hk]

/-- C10, amended: the record-producing classifier is total on every
fragment whose 50-byte truncation point falls on a character boundary (in
particular on all-ASCII fragments); on other fragments the byte slice
panics (see the counterexample). -/
theorem classifier_total_on_ascii :
    ∀ s : String, (∀ c ∈ s.data, c.toNat < 128) →
      ∃ b, will_produce_records s = some b := by
  intro s h
  have h1 : ∀ c ∈ s.data, c.utf8Size = 1 := fun c hc => utf8Size_one_of_ascii c (h c hc)
  have hb : byteLen s.data = s.data.length := byteLen_of_ascii h1
  have ht : takeBytes (min 50 (byteLen s.data)) s.data =
      some (s.data.take (min 50 (byteLen s.data))) :=
    takeBytes_of_ascii _ _ h1 (by rw [hb]; exact min_le_right _ _)
  exact ⟨_, by rw [will_produce_records, ht]; rfl⟩

theorem classifier_total_on_ascii_witness :
    (∀ c ∈ "SELECT 1".data, c.toNat < 128) ∧
      ∃ b, will_produce_records "SELECT 1" = some b :=
  ⟨by decide, classifier_total_on_ascii "SELECT 1" (by decide)⟩

/-- C10, counterexample: a 51-byte fragment whose 50th byte falls inside
the two-byte character `é`; `statement[..50]` panics in the source, so the
classification fails rather than returning a boolean. -/
theorem classifier_panics_mid_utf8 :
    byteLen (List.replicate 49 'a' ++ ['é']) = 51 ∧
      will_produce_records ⟨List.replicate 49 'a' ++ ['é']⟩ = none := by
  constructor
  · decide
  · decide

/-! ## C4: exactly-one-record-producing-statement validation -/

/-- C4: when the number of record-producing fragments differs from one,
`execute_sql` returns the model-definition error and no statement reaches
the connection (the trace is empty). -/
theorem statement_count_validation :
    ∀ (node : Node) (conn : Conn) (rp : List String),
      filterRecordProducing (splitStatements node.rendered_src) = some rp →
      rp.length ≠ 1 →
      executeSql node conn =
        some (.error (.error (countErrorMsg node.id rp.length)), []) := by
  intro node conn rp h hne
  simp only [executeSql]
  rw [h]
  simp [hne]

/-! ## C3: per-fragment failure handling and batch isolation -/

/-- C3: (i) a fragment whose execution fails with a non-benign message
stops the model's remaining fragments and yields a failure carrying the
engine message, the model's source path, and the failing SQL text;
(ii) the benign empty-statement message is silently skipped;
(iii) the run loop produces an outcome for every scheduled model, i.e. a
per-model failure never prevents later models from executing. -/
theorem fragment_failure_isolation :
    (∀ (node : Node) (conn : Conn) (stmt : String) (rest : List String)
        (n : Nat) (tr : List DbCall) (b : Bool) (adj msg : String),
      will_produce_records stmt = some b →
      adjustStatement node stmt b = .ok adj →
      conn.execute adj = .error msg →
      containsSubstr msg "No statement to prepare" = false →
      execLoop node conn (stmt :: rest) n tr =
        some (.error (.statementExecutionError msg node.path stmt),
          tr ++ [.exec adj])) ∧
    (∀ (node : Node) (conn : Conn) (stmt : String) (rest : List String)
        (n : Nat) (tr : List DbCall) (b : Bool) (adj msg : String),
      will_produce_records stmt = some b →
      adjustStatement node stmt b = .ok adj →
      conn.execute adj = .error msg →
      containsSubstr msg "No statement to prepare" = true →
      execLoop node conn (stmt :: rest) n tr =
        execLoop node conn rest n (tr ++ [.exec adj])) ∧
    (∀ (conn : Conn) (nodes : List Node)
        (outs : List (String × Except ArnabError NodeExecutionResult)),
      runScheduled conn nodes = some outs →
      outs.map Prod.fst = nodes.map Node.id) := by
  refine ⟨?_, ?_, ?_⟩
  · intro node conn stmt rest n tr b adj msg hb hadj hexec hmsg
    simp [execLoop, hb, hadj, hexec, hmsg]
  · intro node conn stmt rest n tr b adj msg hb hadj hexec hmsg
    simp [execLoop, hb, hadj, hexec, hmsg]
  · intro conn nodes
    induction nodes with
    | nil =>
      intro outs h
      simp [runScheduled] at h
      subst h
      rfl
    | cons node rest ih =>
      intro outs h
      simp only [runScheduled, Option.bind_eq_bind, bind, Option.bind] at h
      cases hx : executeSql node conn with
      | none => rw [hx] at h; cases h
      | some r =>
        rw [hx] at h
        cases hr : runScheduled conn rest with
        | none => rw [hr] at h; cases h
        | some rs =>
          rw [hr] at h
          cases h
          simp [ih rs hr]

theorem fragment_failure_isolation_witness :
    (connErr.execute "CREATE OR REPLACE VIEW m AS (SELECT 1)" =
        .error "Catalog Error: boom" ∧
      execLoop ⟨"models/m.sql", "m", "", "SELECT 1", [], none⟩ connErr
          ["SELECT 1"] 0 [] =
        some (.error (.statementExecutionError "Catalog Error: boom"
            "models/m.sql" "SELECT 1"),
          [.exec "CREATE OR REPLACE VIEW m AS (SELECT 1)"])) ∧
    (execLoop ⟨"models/m.sql", "m", "", "SELECT 1", [], none⟩ connBenign
        ["SELECT 1", "PRAGMA x"] 0 [] =
      execLoop ⟨"models/m.sql", "m", "", "SELECT 1", [], none⟩ connBenign
        ["PRAGMA x"] 0 [.exec "CREATE OR REPLACE VIEW m AS (SELECT 1)"]) ∧
    (runScheduled connErr [⟨"models/m.sql", "m", "", "SELECT 1", [], none⟩,
        ⟨"models/n.sql", "n", "", "SELECT 2", [], none⟩]).elim False
      (fun outs => outs.map Prod.fst = ["m", "n"]) := by
  refine ⟨⟨by decide, ?_⟩, ?_, ?_⟩
  · exact fragment_failure_isolation.1 _ connErr "SELECT 1" [] 0 [] true
      "CREATE OR REPLACE VIEW m AS (SELECT 1)" "Catalog Error: boom"
      (by decide) (by decide) (by decide) (by decide)
  · exact fragment_failure_isolation.2.1 _ connBenign "SELECT 1" ["PRAGMA x"] 0 [] true
      "CREATE OR REPLACE VIEW m AS (SELECT 1)"
      "Invalid Input Error: No statement to prepare!"
      (by decide) (by decide) (by decide) (by decide)
  · have h : runScheduled connErr [⟨"models/m.sql", "m", "", "SELECT 1", [], none⟩,
        ⟨"models/n.sql", "n", "", "SELECT 2", [], none⟩] =
        some [("m", .error (.statementExecutionError "Catalog Error: boom"
            "models/m.sql" "SELECT 1")),
          ("n", .error (.statementExecutionError "Catalog Error: boom"
            "models/n.sql" "SELECT 2"))] := by decide
    rw [h]
    exact fragment_failure_isolation.2.2 connErr _ _ h

/-! ## C5: materialization rewrite of the record-producing fragment -/

/-- C5: the single record-producing fragment `q` is rewritten to
`CREATE OR REPLACE VIEW <id> AS (<q>)` when the materialization is absent
or (case-insensitively) "view", to `CREATE OR REPLACE TABLE <id> AS (<q>)`
when it is (case-insensitively) "table", and any other configured value is
a model-definition error (returned by `execute_sql` before anything is
sent to the connection, when `q` is the model's only fragment). -/
theorem materialization_rewrite :
    ∀ (node : Node) (q : String),
      will_produce_records q = some true →
      ((node.materialize = none →
          adjustStatement node q true =
            .ok ("CREATE OR REPLACE VIEW " ++ node.id ++ " AS (" ++ q ++ ")")) ∧
       (∀ m, node.materialize = some m → lowerStr m = "view" →
          adjustStatement node q true =
            .ok ("CREATE OR REPLACE VIEW " ++ node.id ++ " AS (" ++ q ++ ")")) ∧
       (∀ m, node.materialize = some m → lowerStr m = "table" →
          adjustStatement node q true =
            .ok ("CREATE OR REPLACE TABLE " ++ node.id ++ " AS (" ++ q ++ ")")) ∧
       (∀ m, node.materialize = some m → lowerStr m ≠ "view" → lowerStr m ≠ "table" →
          adjustStatement node q true =
            .error (.error ("Unknown materialization type `" ++ m ++ "`")) ∧
          (splitStatements node.rendered_src = [q] →
            ∀ conn, executeSql node conn =
              some (.error (.error ("Unknown materialization type `" ++ m ++ "`")),
                [])))) := by
  intro node q hq
  refine ⟨?_, ?_, ?_, ?_⟩
  · intro h
    simp [adjustStatement, h]
  · intro m hm hv
    simp [adjustStatement, hm, hv]
  · intro m hm ht
    simp [adjustStatement, hm, ht]
  · intro m hm hv ht
    have hadj : adjustStatement node q true =
        .error (.error ("Unknown materialization type `" ++ m ++ "`")) := by
      simp [adjustStatement, hm, hv, ht]
    refine ⟨hadj, ?_⟩
    intro hsplit conn
    have hfrp : filterRecordProducing (splitStatements node.rendered_src) = some [q] := by
      rw [hsplit]
      simp [filterRecordProducing, hq]
    simp only [executeSql]
    rw [hfrp]
    simp only [List.length_singleton, ne_eq, not_true_eq_false, if_false, ite_false]
    rw [hsplit]
    simp [execLoop, hq, hadj]

theorem materialization_rewrite_witness :
    will_produce_records "SELECT 1" = some true ∧
    adjustStatement ⟨"p", "m", "", "SELECT 1", [], none⟩ "SELECT 1" true =
      .ok "CREATE OR REPLACE VIEW m AS (SELECT 1)" ∧
    adjustStatement ⟨"p", "m", "", "SELECT 1", [], some "View"⟩ "SELECT 1" true =
      .ok "CREATE OR REPLACE VIEW m AS (SELECT 1)" ∧
    adjustStatement ⟨"p", "m", "", "SELECT 1", [], some "TABLE"⟩ "SELECT 1" true =
      .ok "CREATE OR REPLACE TABLE m AS (SELECT 1)" ∧
    executeSql ⟨"p", "m", "", "SELECT 1", [], some "materialized_view"⟩ connOk =
      some (.error (.error "Unknown materialization type `materialized_view`"), []) :=
  ⟨by decide,
    (materialization_rewrite _ "SELECT 1" (by decide)).1 rfl,
    (materialization_rewrite ⟨"p", "m", "", "SELECT 1", [], some "View"⟩ "SELECT 1"
      (by decide)).2.1 "View" rfl (by decide),
    (materialization_rewrite ⟨"p", "m", "", "SELECT 1", [], some "TABLE"⟩ "SELECT 1"
      (by decide)).2.2.1 "TABLE" rfl (by decide),
    ((materialization_rewrite ⟨"p", "m", "", "SELECT 1", [], some "materialized_view"⟩
        "SELECT 1" (by decide)).2.2.2 "materialized_view" rfl (by decide)
      (by decide)).2 (by decide) connOk⟩

theorem statement_count_validation_witness :
    filterRecordProducing (splitStatements "SELECT 1; SELECT 2") =
        some ["SELECT 1", "SELECT 2"] ∧
      executeSql ⟨"p", "m", "", "SELECT 1; SELECT 2", [], none⟩ connOk =
        some (.error (.error (countErrorMsg "m" 2)), []) :=
  ⟨by decide,
    statement_count_validation ⟨"p", "m", "", "SELECT 1; SELECT 2", [], none⟩ connOk
      ["SELECT 1", "SELECT 2"] (by decide) (by decide)⟩

/-! ## C8: row counts for table materializations -/

theorem filterRecordProducing_isSome :
    ∀ {l r : List String}, filterRecordProducing l = some r →
      ∀ s ∈ l, (will_produce_records s).isSome := by
  intro l
  induction l with
  | nil => intro r _ s hs; cases hs
  | cons s rest ih =>
    intro r h s' hs'
    simp only [filterRecordProducing, Option.bind_eq_bind, bind, Option.bind] at h
    cases hb : will_produce_records s with
    | none => rw [hb] at h; cases h
    | some b =>
      rw [hb] at h
      cases hr : filterRecordProducing rest with
      | none => rw [hr] at h; cases h
      | some r' =>
        rcases List.mem_cons.mp hs' with rfl | hmem
        · simp [hb]
        · exact ih hr s' hmem

theorem adjust_table_ok (node : Node) (stmt : String) (b : Bool)
    (h : node.materialize = some "table") :
    ∃ adj, adjustStatement node stmt b = .ok adj := by
  have hl : lowerStr "table" = "table" := by decide
  cases b <;> simp [adjustStatement, h, hl]

theorem execLoop_table_count (node : Node) (conn : Conn) (k : Nat)
    (hmat : node.materialize = some "table")
    (hok : ∀ s, conn.execute s = .ok ())
    (hcnt : conn.countRows ("SELECT COUNT(*) FROM " ++ node.id) = some k) :
    ∀ (stmts : List String) (n : Nat) (tr : List DbCall),
      (∀ s ∈ stmts, (will_produce_records s).isSome) → stmts ≠ [] →
      ∃ tr', execLoop node conn stmts n tr = some (.ok (.sql k), tr') ∧
        DbCall.count ("SELECT COUNT(*) FROM " ++ node.id) ∈ tr' := by
  intro stmts
  induction stmts with
  | nil => intro n tr _ hne; exact absurd rfl hne
  | cons s rest ih =>
    intro n tr hall _
    obtain ⟨b, hb⟩ := Option.isSome_iff_exists.mp (hall s (List.mem_cons_self s rest))
    obtain ⟨adj, hadj⟩ := adjust_table_ok node s b hmat
    by_cases hrest : rest = []
    · subst hrest
      refine ⟨tr ++ [.exec adj, .count ("SELECT COUNT(*) FROM " ++ node.id)], ?_, by simp⟩
      simp [execLoop, hb, hadj, hok, hmat, hcnt]
    · obtain ⟨tr', h1, h2⟩ :=
        ih k (tr ++ [.exec adj, .count ("SELECT COUNT(*) FROM " ++ node.id)])
          (fun x hx => hall x (List.mem_cons_of_mem s hx)) hrest
      exact ⟨tr', by simp [execLoop, hb, hadj, hok, hmat, hcnt, h1], h2⟩

theorem execLoop_no_count (node : Node) (conn : Conn)
    (hmat : ¬ node.materialize = some "table") :
    ∀ (stmts : List String) (n : Nat) (tr : List DbCall) r tr',
      execLoop node conn stmts n tr = some (r, tr') →
      ∀ s, DbCall.count s ∈ tr' → DbCall.count s ∈ tr := by
  intro stmts
  induction stmts with
  | nil =>
    intro n tr r tr' h s hs
    simp only [execLoop] at h
    cases h
    exact hs
  | cons s rest ih =>
    intro n tr r tr' h s' hs'
    cases hb : will_produce_records s with
    | none => simp [execLoop, hb] at h
    | some b =>
      cases hadj : adjustStatement node s b with
      | error e =>
        simp only [execLoop, hb, hadj] at h
        cases h
        exact hs'
      | ok adj =>
        cases hex : conn.execute adj with
        | ok u =>
          simp only [execLoop, hb, hadj, hex, if_neg hmat] at h
          have := ih _ _ _ _ h s' hs'
          rcases List.mem_append.mp this with hin | hin
          · exact hin
          · simp at hin
        | error msg =>
          simp only [execLoop, hb, hadj, hex] at h
          by_cases hc : containsSubstr msg "No statement to prepare" = true
          · rw [if_pos hc] at h
            have := ih _ _ _ _ h s' hs'
            rcases List.mem_append.mp this with hin | hin
            · exact hin
            · simp at hin
          · rw [if_neg hc] at h
            cases h
            rcases List.mem_append.mp hs' with hin | hin
            · exact hin
            · simp at hin

/-- C8, amended: the row-count query is issued, and its value recorded in
the outcome, exactly when the configured materialization string is the
lowercase `"table"` (the comparison at node.rs line 176 is
case-sensitive); for every other configuration — including `"Table"`,
which still creates a table, see the counterexample — no count query is
ever issued. -/
theorem row_count_exact_table_only :
    (∀ (node : Node) (conn : Conn) (k : Nat) (q : String),
      node.materialize = some "table" →
      (∀ s, conn.execute s = .ok ()) →
      conn.countRows ("SELECT COUNT(*) FROM " ++ node.id) = some k →
      filterRecordProducing (splitStatements node.rendered_src) = some [q] →
      ∃ tr, executeSql node conn = some (.ok (.sql k), tr) ∧
        DbCall.count ("SELECT COUNT(*) FROM " ++ node.id) ∈ tr) ∧
    (∀ (node : Node) (conn : Conn) (r : Except ArnabError NodeExecutionResult)
        (tr : List DbCall),
      ¬ node.materialize = some "table" →
      executeSql node conn = some (r, tr) →
      ∀ s, DbCall.count s ∉ tr) := by
  constructor
  · intro node conn k q hmat hok hcnt hfrp
    have hne : splitStatements node.rendered_src ≠ [] := by
      intro he
      rw [he] at hfrp
      simp [filterRecordProducing] at hfrp
    obtain ⟨tr, h1, h2⟩ :=
      execLoop_table_count node conn k hmat hok hcnt
        (splitStatements node.rendered_src) 0 []
        (filterRecordProducing_isSome hfrp) hne
    refine ⟨tr, ?_, h2⟩
    simp only [executeSql]
    rw [hfrp]
    simpa using h1
  · intro node conn r tr hmat hexec s hs
    cases hfrp : filterRecordProducing (splitStatements node.rendered_src) with
    | none => simp [executeSql, hfrp] at hexec
    | some rp =>
      simp only [executeSql, hfrp] at hexec
      by_cases hlen : rp.length ≠ 1
      · rw [if_pos hlen] at hexec
        cases hexec
        cases hs
      · rw [if_neg hlen] at hexec
        exact absurd (execLoop_no_count node conn hmat _ _ _ _ _ hexec s hs)
          (by simp)

theorem row_count_exact_table_only_witness :
    ((∀ s, connOk.execute s = .ok ()) ∧
      ∃ tr, executeSql ⟨"p", "m", "", "SELECT 1", [], some "table"⟩ connOk =
          some (.ok (.sql 7), tr) ∧
        DbCall.count ("SELECT COUNT(*) FROM " ++ "m") ∈ tr) ∧
    (executeSql ⟨"p", "m", "", "SELECT 1", [], some "view"⟩ connOk =
        some (.ok (.sql 0), [.exec "CREATE OR REPLACE VIEW m AS (SELECT 1)"]) ∧
      ∀ s, DbCall.count s ∉ [DbCall.exec "CREATE OR REPLACE VIEW m AS (SELECT 1)"]) :=
  ⟨⟨fun _ => rfl,
    row_count_exact_table_only.1 ⟨"p", "m", "", "SELECT 1", [], some "table"⟩ connOk 7
      "SELECT 1" rfl (fun _ => rfl) rfl (by decide)⟩,
   ⟨by decide,
    row_count_exact_table_only.2 ⟨"p", "m", "", "SELECT 1", [], some "view"⟩ connOk
      (.ok (.sql 0)) [.exec "CREATE OR REPLACE VIEW m AS (SELECT 1)"]
      (by decide) (by decide)⟩⟩

/-- C8, counterexample: the materialization string `"Table"` is a Table
materialization in the sense of the rewrite step (case-insensitive,
`lowerStr "Table" = "table"`), the model executes successfully and creates
a table, yet no count query is issued and the outcome records 0 rows even
though the count oracle would report 7. -/
theorem row_count_missing_for_cased_table :
    lowerStr "Table" = "table" ∧
    connOk.countRows "SELECT COUNT(*) FROM m" = some 7 ∧
    executeSql ⟨"p", "m", "", "SELECT 1", [], some "Table"⟩ connOk =
      some (.ok (.sql 0), [.exec "CREATE OR REPLACE TABLE m AS (SELECT 1)"]) :=
  ⟨by decide, by decide, by decide⟩

/-! ## C9: determinism of rendering and reference extraction -/

/-- C9, amended: rendering and reference extraction are deterministic
functions of the raw text, the ORDERED macro body sequence, and the name
universe as a set (only membership in `all_model_names` matters).  The
original claim — determinism given the macro bodies as an unordered set —
fails because the concatenation order (a `HashMap` iteration order,
random across processes) is observable in both outputs; see the
counterexample. -/
theorem render_deterministic :
    ∀ (env : RenderEnv) (bodies : List String) (n : Node)
      (names₁ names₂ : List String),
      (∀ x, x ∈ names₁ ↔ x ∈ names₂) →
      render_and_populate_refs env bodies names₁ n =
        render_and_populate_refs env bodies names₂ n := by
  intro env bodies n names₁ names₂ hnames
  simp only [render_and_populate_refs]
  cases env.getRefs (concatSrc bodies (stripComments n.raw_src)) with
  | none => rfl
  | some refs =>
    have hf : refs.filter (fun v => names₁.contains v) =
        refs.filter (fun v => names₂.contains v) := by
      apply List.filter_congr
      intro a _
      simp only [List.contains, List.elem_eq_mem]
      exact decide_eq_decide.mpr (hnames a)
    simp only [hf]

theorem render_deterministic_witness :
    (∀ x, x ∈ ["a", "b"] ↔ x ∈ ["b", "a"]) ∧
    render_and_populate_refs envId ["-- x"] ["a", "b"]
        ⟨"p", "m", "SELECT 1", "", [], none⟩ =
      render_and_populate_refs envId ["-- x"] ["b", "a"]
        ⟨"p", "m", "SELECT 1", "", [], none⟩ :=
  ⟨fun x => by simp [or_comm],
    render_deterministic envId ["-- x"] ⟨"p", "m", "SELECT 1", "", [], none⟩
      ["a", "b"] ["b", "a"] (fun x => by simp [or_comm])⟩

/-- C9, counterexample: two runs over the same macro body SET but opposite
iteration orders (`HashMap::values` order is random across processes)
produce different rendered texts for the same raw model text, macro set
and universe.  The macro bodies are SQL `--` comment lines, so the
pre-render concatenations (such as the string of `-- x`, `-- y` and
`SELECT 1` joined by newlines) are well-formed reference-free SQL that
the real sqlparser accepts and template-free text that minijinja renders
to itself — exactly the behaviour of `envId`; note that only the model
body, never the macro bodies, is comment-stripped (node.rs lines
66-76). -/
theorem render_depends_on_macro_order :
    List.Perm ["-- x", "-- y"] ["-- y", "-- x"] ∧
    (render_and_populate_refs envId ["-- x", "-- y"] []
        ⟨"p", "m", "SELECT 1", "", [], none⟩).map Node.rendered_src =
      some "-- x\n-- y\nSELECT 1" ∧
    (render_and_populate_refs envId ["-- y", "-- x"] []
        ⟨"p", "m", "SELECT 1", "", [], none⟩).map Node.rendered_src =
      some "-- y\n-- x\nSELECT 1" ∧
    (render_and_populate_refs envId ["-- x", "-- y"] []
        ⟨"p", "m", "SELECT 1", "", [], none⟩).map Node.rendered_src ≠
      (render_and_populate_refs envId ["-- y", "-- x"] []
        ⟨"p", "m", "SELECT 1", "", [], none⟩).map Node.rendered_src := by
  refine ⟨by decide, by decide, by decide, by decide⟩

/-! ## C6: reference extraction input -/

/-- C6, amended: reference extraction parses the comment-stripped raw text
with all macro bodies prepended BEFORE template expansion (node.rs line 93
runs before the render at lines 99-105): `depends_on` is a function of the
pre-render text and the name universe, not of the rendered statement. -/
theorem refs_from_prerender_text :
    ∀ (env : RenderEnv) (bodies names : List String) (n n' : Node),
      render_and_populate_refs env bodies names n = some n' →
      ∃ refs, env.getRefs (concatSrc bodies (stripComments n.raw_src)) = some refs ∧
        n'.prevs = (refs.filter (fun v => names.contains v)).dedup ∧
        env.render (concatSrc bodies (stripComments n.raw_src)) =
          some n'.rendered_src := by
  intro env bodies names n n' h
  cases hg : env.getRefs (concatSrc bodies (stripComments n.raw_src)) with
  | none => simp [render_and_populate_refs, hg] at h
  | some refs =>
    cases hr : env.render (concatSrc bodies (stripComments n.raw_src)) with
    | none => simp [render_and_populate_refs, hg, hr] at h
    | some rendered =>
      simp only [render_and_populate_refs, hg, hr] at h
      cases h
      exact ⟨refs, rfl, rfl, rfl⟩

theorem refs_from_prerender_text_witness :
    render_and_populate_refs envJinja [] ["m1", "m2"]
        ⟨"p1", "m1", "SELECT * FROM m2 ", "", [], none⟩ =
      some ⟨"p1", "m1", "SELECT * FROM m2 ", "\nSELECT * FROM m2 ", ["m2"], none⟩ ∧
    ∃ refs,
      envJinja.getRefs (concatSrc [] (stripComments "SELECT * FROM m2 ")) =
          some refs ∧
        (⟨"p1", "m1", "SELECT * FROM m2 ", "\nSELECT * FROM m2 ", ["m2"], none⟩ :
            Node).prevs =
          (refs.filter (fun v => (["m1", "m2"] : List String).contains v)).dedup ∧
        envJinja.render (concatSrc [] (stripComments "SELECT * FROM m2 ")) =
          some (⟨"p1", "m1", "SELECT * FROM m2 ", "\nSELECT * FROM m2 ", ["m2"],
            none⟩ : Node).rendered_src :=
  ⟨by decide,
    refs_from_prerender_text envJinja [] ["m1", "m2"]
      ⟨"p1", "m1", "SELECT * FROM m2 ", "", [], none⟩
      ⟨"p1", "m1", "SELECT * FROM m2 ", "\nSELECT * FROM m2 ", ["m2"], none⟩
      (by decide)⟩

/-- C6, counterexample: two raw model texts whose RENDERED text coincides
(the second contains only an extra jinja comment, which rendering strips)
but whose computed `depends_on` differ: the first yields `{m2}` while the
second makes the pre-render SQL parse fail (the sqlparser `unwrap` panic),
because extraction runs on the unrendered text.  `depends_on` is therefore
not a function of the rendered statement. -/
theorem refs_not_function_of_rendered :
    (envJinja.render (concatSrc [] (stripComments "SELECT * FROM m2 ")) =
      envJinja.render
        (concatSrc [] (stripComments "SELECT * FROM m2 \x7b# c #\x7d"))) ∧
    (render_and_populate_refs envJinja [] ["m1", "m2"]
        ⟨"p1", "m1", "SELECT * FROM m2 ", "", [], none⟩).map Node.prevs =
      some ["m2"] ∧
    (render_and_populate_refs envJinja [] ["m1", "m2"]
        ⟨"p2", "m1", "SELECT * FROM m2 \x7b# c #\x7d", "", [], none⟩).map
        Node.prevs = none := by
  refine ⟨by decide, by decide, by decide⟩

/-! ## C7: every extracted reference is registered; the invalid-id filter
is a no-op -/

theorem rpr_id_prevs :
    ∀ {env : RenderEnv} {bodies names : List String} {n n' : Node},
      render_and_populate_refs env bodies names n = some n' →
      n'.id = n.id ∧ ∀ p ∈ n'.prevs, p ∈ names := by
  intro env bodies names n n' h
  cases hg : env.getRefs (concatSrc bodies (stripComments n.raw_src)) with
  | none => simp [render_and_populate_refs, hg] at h
  | some refs =>
    cases hr : env.render (concatSrc bodies (stripComments n.raw_src)) with
    | none => simp [render_and_populate_refs, hg, hr] at h
    | some rendered =>
      simp only [render_and_populate_refs, hg, hr] at h
      cases h
      refine ⟨rfl, ?_⟩
      intro p hp
      have hp' := List.mem_dedup.mp hp
      have := (List.mem_filter.mp hp').2
      simpa [List.contains, List.elem_eq_mem] using this

theorem prepareNodes_ids :
    ∀ {env : RenderEnv} {bodies names : List String} {nodes g : List Node},
      prepareNodes env bodies names nodes = some g →
      idsOf g = idsOf nodes ∧ ∀ n ∈ g, ∀ p ∈ n.prevs, p ∈ names := by
  intro env bodies names nodes
  induction nodes with
  | nil =>
    intro g h
    simp only [prepareNodes] at h
    cases h
    exact ⟨rfl, by intro n hn; cases hn⟩
  | cons n rest ih =>
    intro g h
    simp only [prepareNodes, Option.bind_eq_bind, bind, Option.bind] at h
    cases hn : render_and_populate_refs env bodies names n with
    | none => rw [hn] at h; cases h
    | some n' =>
      rw [hn] at h
      cases hr : prepareNodes env bodies names rest with
      | none => rw [hr] at h; cases h
      | some g' =>
        rw [hr] at h
        cases h
        obtain ⟨hid, hprev⟩ := rpr_id_prevs hn
        obtain ⟨hids, hprevs⟩ := ih hr
        refine ⟨?_, ?_⟩
        · simp [idsOf, hid, hids]
          exact hids
        · intro x hx p hp
          rcases List.mem_cons.mp hx with rfl | hx'
          · exact hprev p hp
          · exact hprevs x hx' p hp

theorem findNode_isSome_of_mem_ids {g : List Node} {i : String} (h : i ∈ idsOf g) :
    (findNode g i).isSome := by
  obtain ⟨n, hn, rfl⟩ := List.mem_map.mp h
  rw [findNode, List.find?_isSome]
  exact ⟨n, hn, by simp⟩

/-- C7: after discovery (all nodes rendered against the universe of
discovered ids), every `prevs` entry of every node is a registered id;
hence `invalid_node_ids` stays empty, the filter on the sorted schedule
removes nothing, and the session schedule equals the unfiltered one. -/
theorem all_refs_registered_filter_noop :
    ∀ (env : RenderEnv) (bodies : List String) (nodes g : List Node),
      prepareNodes env bodies (nodes.map Node.id) nodes = some g →
      (∀ n ∈ g, ∀ p ∈ n.prevs, p ∈ idsOf g) ∧
      invalidIds g = [] ∧
      (∀ fuel s, scheduleF g fuel = some s →
        s.filter (fun v => !((invalidIds g).contains v)) = s) ∧
      (∀ fuel, sessionSchedule env bodies nodes fuel = scheduleF g fuel) := by
  intro env bodies nodes g h
  obtain ⟨hids, hprevs⟩ := prepareNodes_ids h
  have hmem : ∀ n ∈ g, ∀ p ∈ n.prevs, p ∈ idsOf g := by
    intro n hn p hp
    rw [hids]
    exact hprevs n hn p hp
  have hinv : invalidIds g = [] := by
    rw [invalidIds, List.dedup_eq_nil]
    rw [List.flatMap_eq_nil_iff]
    intro n hn
    rw [List.filter_eq_nil_iff]
    intro p hp
    have := findNode_isSome_of_mem_ids (hmem n hn p hp)
    simp [Option.isNone_iff_eq_none]
    exact Option.isSome_iff_ne_none.mp this
  have hfil : ∀ (s : List String),
      s.filter (fun v => !((invalidIds g).contains v)) = s := by
    intro s
    rw [hinv]
    simp
  refine ⟨hmem, hinv, fun fuel s _ => hfil s, ?_⟩
  intro fuel
  simp only [sessionSchedule, Option.bind_eq_bind, bind, Option.bind, h]
  cases hs : scheduleF g fuel with
  | none => rfl
  | some s =>
    simp [hfil s, hinv]

theorem all_refs_registered_filter_noop_witness :
    prepareNodes envId [] (["m"] : List String)
        [⟨"p", "m", "SELECT 1", "", [], none⟩] =
      some [⟨"p", "m", "SELECT 1", "\nSELECT 1", [], none⟩] ∧
    invalidIds [⟨"p", "m", "SELECT 1", "\nSELECT 1", [], none⟩] = [] ∧
    sessionSchedule envId [] [⟨"p", "m", "SELECT 1", "", [], none⟩] 5 =
      scheduleF [⟨"p", "m", "SELECT 1", "\nSELECT 1", [], none⟩] 5 :=
  ⟨by decide,
    (all_refs_registered_filter_noop envId [] [⟨"p", "m", "SELECT 1", "", [], none⟩]
      [⟨"p", "m", "SELECT 1", "\nSELECT 1", [], none⟩] (by decide)).2.1,
    (all_refs_registered_filter_noop envId [] [⟨"p", "m", "SELECT 1", "", [], none⟩]
      [⟨"p", "m", "SELECT 1", "\nSELECT 1", [], none⟩] (by decide)).2.2.2 5⟩

/-! ## C1 and C2: scheduler correctness.

Generic lemmas about `runList` (the accumulator fold shared by `topo`'s
inner loop and the terminal-id loop), then the `topo` invariants. -/

section RunListLemmas

variable {f : String → List String → Option (List String)}

theorem runList_extends (hf : ∀ p a a', f p a = some a' → a <+: a') :
    ∀ (ps : List String) (out out' : List String),
      runList f ps out = some out' → out <+: out' := by
  intro ps
  induction ps with
  | nil =>
    intro out out' h
    simp only [runList] at h
    cases h
    exact List.prefix_refl _
  | cons p ps ih =>
    intro out out' h
    simp only [runList] at h
    cases hc : f p out with
    | none => rw [hc] at h; cases h
    | some o =>
      rw [hc] at h
      exact (hf p out o hc).trans (ih o out' h)

theorem runList_pres {P : List String → Prop}
    (hf : ∀ p a a', f p a = some a' → P a → P a') :
    ∀ (ps : List String) (out out' : List String),
      runList f ps out = some out' → P out → P out' := by
  intro ps
  induction ps with
  | nil =>
    intro out out' h hP
    simp only [runList] at h
    cases h
    exact hP
  | cons p ps ih =>
    intro out out' h hP
    simp only [runList] at h
    cases hc : f p out with
    | none => rw [hc] at h; cases h
    | some o =>
      rw [hc] at h
      exact ih o out' h (hf p out o hc hP)

theorem runList_calls {P : List String → Prop}
    (hpre : ∀ p a a', f p a = some a' → a <+: a')
    (hf : ∀ p a a', f p a = some a' → P a → P a') :
    ∀ (ps : List String) (out out' : List String),
      runList f ps out = some out' → P out →
      ∀ p ∈ ps, ∃ a a', P a ∧ f p a = some a' ∧ a' <+: out' := by
  intro ps
  induction ps with
  | nil => intro out out' _ _ p hp; cases hp
  | cons q ps ih =>
    intro out out' h hP p hp
    simp only [runList] at h
    cases hc : f q out with
    | none => rw [hc] at h; cases h
    | some o =>
      rw [hc] at h
      rcases List.mem_cons.mp hp with rfl | hp'
      · exact ⟨out, o, hP, hc, runList_extends hpre ps o out' h⟩
      · exact ih o out' h (hf q out o hc hP) p hp'

theorem runList_adds {Q : String → String → Prop}
    (hf : ∀ p a a', f p a = some a' → ∀ x ∈ a', x ∈ a ∨ Q p x) :
    ∀ (ps : List String) (out out' : List String),
      runList f ps out = some out' →
      ∀ x ∈ out', x ∈ out ∨ ∃ p ∈ ps, Q p x := by
  intro ps
  induction ps with
  | nil =>
    intro out out' h x hx
    simp only [runList] at h
    cases h
    exact Or.inl hx
  | cons q ps ih =>
    intro out out' h x hx
    simp only [runList] at h
    cases hc : f q out with
    | none => rw [hc] at h; cases h
    | some o =>
      rw [hc] at h
      rcases ih o out' h x hx with hin | ⟨p, hp, hQ⟩
      · rcases hf q out o hc x hin with hin' | hQ
        · exact Or.inl hin'
        · exact Or.inr ⟨q, List.mem_cons_self q ps, hQ⟩
      · exact Or.inr ⟨p, List.mem_cons_of_mem q hp, hQ⟩

end RunListLemmas

theorem prevsOf_eq_of_findNode {g : List Node} {root : String} {node : Node}
    (h : findNode g root = some node) : prevsOf g root = node.prevs := by
  simp [prevsOf, h]

theorem findNode_mem {g : List Node} {root : String} {node : Node}
    (h : findNode g root = some node) : node ∈ g ∧ node.id = root := by
  rw [findNode] at h
  have hp := List.find?_some h
  exact ⟨List.mem_of_find?_eq_some h, eq_of_beq hp⟩

theorem topoF_extends {g : List Node} :
    ∀ (fuel : Nat) (root : String) (out out' : List String),
      topoF g fuel root out = some out' → out <+: out' := by
  intro fuel
  induction fuel with
  | zero => intro root out out' h; cases h
  | succ fuel ih =>
    intro root out out' h
    by_cases hr : root ∈ out
    · simp only [topoF, if_pos hr] at h
      cases h
      exact List.prefix_refl _
    · cases hf : findNode g root with
      | none =>
        simp only [topoF, if_neg hr, hf] at h
        cases h
      | some node =>
        simp only [topoF, if_neg hr, hf] at h
        cases hrl : runList (topoF g fuel) node.prevs out with
        | none => rw [hrl] at h; cases h
        | some o =>
          rw [hrl] at h
          simp only [Option.map_some'] at h
          cases h
          exact (runList_extends ih node.prevs out o hrl).trans
            (List.prefix_append o [root])

theorem topoF_mem_root {g : List Node} :
    ∀ (fuel : Nat) (root : String) (out out' : List String),
      topoF g fuel root out = some out' → root ∈ out' := by
  intro fuel root out out' h
  cases fuel with
  | zero => cases h
  | succ fuel =>
    by_cases hr : root ∈ out
    · simp only [topoF, if_pos hr] at h
      cases h
      exact hr
    · cases hf : findNode g root with
      | none =>
        simp only [topoF, if_neg hr, hf] at h
        cases h
      | some node =>
        simp only [topoF, if_neg hr, hf] at h
        cases hrl : runList (topoF g fuel) node.prevs out with
        | none => rw [hrl] at h; cases h
        | some o =>
          rw [hrl] at h
          simp only [Option.map_some'] at h
          cases h
          simp

theorem topoF_adds {g : List Node} :
    ∀ (fuel : Nat) (root : String) (out out' : List String),
      topoF g fuel root out = some out' →
      ∀ x ∈ out', x ∈ out ∨ Relation.ReflTransGen (Dep g) root x := by
  intro fuel
  induction fuel with
  | zero => intro root out out' h; cases h
  | succ fuel ih =>
    intro root out out' h x hx
    by_cases hr : root ∈ out
    · simp only [topoF, if_pos hr] at h
      cases h
      exact Or.inl hx
    · cases hf : findNode g root with
      | none =>
        simp only [topoF, if_neg hr, hf] at h
        cases h
      | some node =>
        simp only [topoF, if_neg hr, hf] at h
        cases hrl : runList (topoF g fuel) node.prevs out with
        | none => rw [hrl] at h; cases h
        | some o =>
          rw [hrl] at h
          simp only [Option.map_some'] at h
          cases h
          rcases List.mem_append.mp hx with hxo | hxr
          · rcases runList_adds ih node.prevs out o hrl x hxo with hin | ⟨p, hp, hQ⟩
            · exact Or.inl hin
            · refine Or.inr (Relation.ReflTransGen.head ?_ hQ)
              rw [Dep, prevsOf_eq_of_findNode hf]
              exact hp
          · have : x = root := by simpa using hxr
            subst this
            exact Or.inr Relation.ReflTransGen.refl

theorem topoF_registered {g : List Node} :
    ∀ (fuel : Nat) (root : String) (out out' : List String),
      topoF g fuel root out = some out' →
      ∀ x ∈ out', x ∈ out ∨ x ∈ idsOf g := by
  intro fuel
  induction fuel with
  | zero => intro root out out' h; cases h
  | succ fuel ih =>
    intro root out out' h x hx
    by_cases hr : root ∈ out
    · simp only [topoF, if_pos hr] at h
      cases h
      exact Or.inl hx
    · cases hf : findNode g root with
      | none =>
        simp only [topoF, if_neg hr, hf] at h
        cases h
      | some node =>
        simp only [topoF, if_neg hr, hf] at h
        cases hrl : runList (topoF g fuel) node.prevs out with
        | none => rw [hrl] at h; cases h
        | some o =>
          rw [hrl] at h
          simp only [Option.map_some'] at h
          cases h
          rcases List.mem_append.mp hx with hxo | hxr
          · exact runList_adds (Q := fun _ x => x ∈ idsOf g) ih node.prevs out o hrl
              x hxo |>.imp id (fun ⟨_, _, hm⟩ => hm)
          · have : x = root := by simpa using hxr
            subst this
            obtain ⟨hm, hid⟩ := findNode_mem hf
            exact Or.inr (List.mem_map.mpr ⟨node, hm, hid⟩)

theorem append_singleton_cases {α : Type} {l l₁ l₂ : List α} {a m : α}
    (h : l ++ [a] = l₁ ++ m :: l₂) :
    (l₁ = l ∧ m = a ∧ l₂ = []) ∨ ∃ l₂', l = l₁ ++ m :: l₂' ∧ l₂ = l₂' ++ [a] := by
  rcases List.eq_nil_or_concat l₂ with rfl | ⟨l₂', b, rfl⟩
  · left
    obtain ⟨h1, h2⟩ := List.append_inj' h rfl
    have hma : m = a := by injection h2.symm
    exact ⟨h1.symm, hma, rfl⟩
  · right
    have h' : l ++ [a] = (l₁ ++ m :: l₂') ++ [b] := by
      rw [h]
      simp
    obtain ⟨h1, h2⟩ := List.append_inj' h' rfl
    have hab : a = b := by injection h2
    exact ⟨l₂', h1, by rw [hab]; simp⟩

theorem closedOrdered_nil (g : List Node) : ClosedOrdered g [] := by
  intro l₁ m l₂ h
  simp at h

theorem topoF_invariant {g : List Node} (hacy : Acyclic g) :
    ∀ (fuel : Nat) (root : String) (out out' : List String),
      topoF g fuel root out = some out' →
      ClosedOrdered g out ∧ out.Nodup → ClosedOrdered g out' ∧ out'.Nodup := by
  intro fuel
  induction fuel with
  | zero => intro root out out' h; cases h
  | succ fuel ih =>
    intro root out out' h hP
    by_cases hr : root ∈ out
    · simp only [topoF, if_pos hr] at h
      cases h
      exact hP
    · cases hf : findNode g root with
      | none =>
        simp only [topoF, if_neg hr, hf] at h
        cases h
      | some node =>
        simp only [topoF, if_neg hr, hf] at h
        cases hrl : runList (topoF g fuel) node.prevs out with
        | none => rw [hrl] at h; cases h
        | some o =>
          rw [hrl] at h
          simp only [Option.map_some'] at h
          cases h
          have hPo : ClosedOrdered g o ∧ o.Nodup :=
            runList_pres (fun p a a' hpa ha => ih p a a' hpa ha)
              node.prevs out o hrl hP
          have hprevs_in : ∀ p ∈ node.prevs, p ∈ o := by
            intro p hp
            obtain ⟨a, a', _, hcall, hpre⟩ :=
              runList_calls (P := fun l => ClosedOrdered g l ∧ l.Nodup)
                (fun p a a' => topoF_extends fuel p a a')
                (fun p a a' hpa ha => ih p a a' hpa ha)
                node.prevs out o hrl hP p hp
            exact hpre.subset (topoF_mem_root fuel p a a' hcall)
          have hroot_not : root ∉ o := by
            intro hro
            rcases runList_adds (fun p a a' hpa => topoF_adds fuel p a a' hpa)
                node.prevs out o hrl root hro with hin | ⟨p, hp, hrtg⟩
            · exact hr hin
            · have hdep : Dep g root p := by
                rw [Dep, prevsOf_eq_of_findNode hf]
                exact hp
              exact hacy root (Relation.TransGen.head' hdep hrtg)
          constructor
          · intro l₁ m l₂ heq p hp
            rcases append_singleton_cases heq with ⟨rfl, rfl, rfl⟩ | ⟨l₂', ho, rfl⟩
            · rw [prevsOf_eq_of_findNode hf] at hp
              exact hprevs_in p hp
            · exact hPo.1 l₁ m l₂' ho p hp
          · simp [List.nodup_append, hPo.2, hroot_not]

theorem closedOrdered_reach_mem {g : List Node} {l : List String}
    (hc : ClosedOrdered g l) {root x : String} (hroot : root ∈ l)
    (h : Relation.ReflTransGen (Dep g) root x) : x ∈ l := by
  revert hroot
  induction h using Relation.ReflTransGen.head_induction_on with
  | refl => exact fun hx => hx
  | head hab hbc ih =>
    intro ha
    apply ih
    obtain ⟨s, t, hl⟩ := List.append_of_mem ha
    have hb := hc s _ t hl _ hab
    rw [hl]
    exact List.mem_append_left _ hb

theorem topoF_covers {g : List Node} (hacy : Acyclic g) :
    ∀ (fuel : Nat) (root : String) (out out' : List String),
      topoF g fuel root out = some out' →
      ClosedOrdered g out → out.Nodup →
      ∀ x, Relation.ReflTransGen (Dep g) root x → x ∈ out' := by
  intro fuel
  induction fuel with
  | zero => intro root out out' h; cases h
  | succ fuel ih =>
    intro root out out' h hco hnd x hrtg
    by_cases hr : root ∈ out
    · simp only [topoF, if_pos hr] at h
      cases h
      exact closedOrdered_reach_mem hco hr hrtg
    · cases hf : findNode g root with
      | none =>
        simp only [topoF, if_neg hr, hf] at h
        cases h
      | some node =>
        simp only [topoF, if_neg hr, hf] at h
        cases hrl : runList (topoF g fuel) node.prevs out with
        | none => rw [hrl] at h; cases h
        | some o =>
          rw [hrl] at h
          simp only [Option.map_some'] at h
          cases h
          rcases Relation.ReflTransGen.cases_head hrtg with rfl | ⟨c, hdep, hrtg'⟩
          · simp
          · have hc : c ∈ node.prevs := by
              rw [Dep, prevsOf_eq_of_findNode hf] at hdep
              exact hdep
            obtain ⟨a, a', hPa, hcall, hpre⟩ :=
              runList_calls (P := fun l => ClosedOrdered g l ∧ l.Nodup)
                (fun p a a' => topoF_extends fuel p a a')
                (fun p a a' hpa ha => topoF_invariant hacy fuel p a a' hpa ha)
                node.prevs out o hrl ⟨hco, hnd⟩ c hc
            have hx : x ∈ a' := ih c a a' hcall hPa.1 hPa.2 x hrtg'
            exact List.mem_append_left [root] (hpre.subset hx)

theorem dep_left_mem_ids {g : List Node} {z w : String} (h : Dep g z w) :
    z ∈ idsOf g := by
  rw [Dep] at h
  cases hf : findNode g z with
  | none => simp [prevsOf, hf] at h
  | some n =>
    obtain ⟨hm, hid⟩ := findNode_mem hf
    exact List.mem_map.mpr ⟨n, hm, hid⟩

theorem ancSet_subset (g : List Node) (x : String) :
    AncSet g x ⊆ {z | z ∈ idsOf g} := by
  intro z hz
  induction hz using Relation.TransGen.head_induction_on with
  | base hd => exact dep_left_mem_ids hd
  | ih hd _ _ => exact dep_left_mem_ids hd

theorem ancSet_finite (g : List Node) (x : String) : (AncSet g x).Finite :=
  Set.Finite.subset (List.finite_toSet (idsOf g)) (ancSet_subset g x)

theorem findNode_of_mem_nodup {g : List Node} (hnd : (idsOf g).Nodup) {n : Node}
    (hn : n ∈ g) : findNode g n.id = some n := by
  induction g with
  | nil => cases hn
  | cons m rest ih =>
    have hnd' : (idsOf rest).Nodup ∧ m.id ∉ idsOf rest := by
      rw [idsOf, List.map_cons, List.nodup_cons] at hnd
      exact ⟨hnd.2, hnd.1⟩
    rcases List.mem_cons.mp hn with rfl | hn'
    · rw [findNode]
      exact List.find?_cons_of_pos _ (by simp)
    · have hne : (m.id == n.id) = false := by
        simp only [beq_eq_false_iff_ne, ne_eq]
        intro he
        exact hnd'.2 (he ▸ List.mem_map.mpr ⟨n, hn', rfl⟩)
      rw [findNode]
      simp only [List.find?_cons, hne, cond_false]
      exact ih hnd'.1 hn'

theorem exists_terminal_aux {g : List Node} (hacy : Acyclic g)
    (hnd : (idsOf g).Nodup) :
    ∀ (N : Nat) (x : String), (AncSet g x).ncard ≤ N → x ∈ idsOf g →
      ∃ t ∈ g, (∀ m ∈ g, t.id ∉ m.prevs) ∧
        Relation.ReflTransGen (Dep g) t.id x := by
  intro N
  induction N with
  | zero =>
    intro x hle hx
    by_cases hterm : ∀ m ∈ g, x ∉ m.prevs
    · obtain ⟨n, hn, hid⟩ := List.mem_map.mp hx
      subst hid
      exact ⟨n, hn, hterm, Relation.ReflTransGen.refl⟩
    · push_neg at hterm
      obtain ⟨m, hm, hxm⟩ := hterm
      have hdep : Dep g m.id x := by
        rw [Dep, prevsOf_eq_of_findNode (findNode_of_mem_nodup hnd hm)]
        exact hxm
      have hpos : 0 < (AncSet g x).ncard :=
        (Set.ncard_pos (ancSet_finite g x)).mpr
          ⟨m.id, Relation.TransGen.single hdep⟩
      omega
  | succ N ih =>
    intro x hle hx
    by_cases hterm : ∀ m ∈ g, x ∉ m.prevs
    · obtain ⟨n, hn, hid⟩ := List.mem_map.mp hx
      subst hid
      exact ⟨n, hn, hterm, Relation.ReflTransGen.refl⟩
    · push_neg at hterm
      obtain ⟨m, hm, hxm⟩ := hterm
      have hdep : Dep g m.id x := by
        rw [Dep, prevsOf_eq_of_findNode (findNode_of_mem_nodup hnd hm)]
        exact hxm
      have hss : AncSet g m.id ⊂ AncSet g x := by
        rw [Set.ssubset_def]
        constructor
        · intro z hz
          exact Relation.TransGen.tail hz hdep
        · intro hsub
          exact hacy m.id (hsub (Relation.TransGen.single hdep))
      have hlt : (AncSet g m.id).ncard < (AncSet g x).ncard :=
        Set.ncard_lt_ncard hss (ancSet_finite g x)
      obtain ⟨t, ht, hterm', hrtg⟩ :=
        ih m.id (by omega) (dep_left_mem_ids hdep)
      exact ⟨t, ht, hterm', hrtg.tail hdep⟩

theorem exists_terminal {g : List Node} (hacy : Acyclic g)
    (hnd : (idsOf g).Nodup) {x : String} (hx : x ∈ idsOf g) :
    ∃ t ∈ g, (∀ m ∈ g, t.id ∉ m.prevs) ∧
      Relation.ReflTransGen (Dep g) t.id x :=
  exists_terminal_aux hacy hnd (AncSet g x).ncard x le_rfl hx

theorem schedule_inv {g : List Node} {fuel : Nat} {s : List String}
    (hacy : Acyclic g) (h : scheduleF g fuel = some s) :
    ClosedOrdered g s ∧ s.Nodup :=
  runList_pres (fun p a a' hpa ha => topoF_invariant hacy fuel p a a' hpa ha)
    (terminalIds g) [] s h ⟨closedOrdered_nil g, List.nodup_nil⟩

theorem schedule_subset_ids {g : List Node} {fuel : Nat} {s : List String}
    (h : scheduleF g fuel = some s) : ∀ x ∈ s, x ∈ idsOf g := by
  intro x hx
  rcases runList_adds (Q := fun _ x => x ∈ idsOf g)
      (fun p a a' hpa => topoF_registered fuel p a a' hpa)
      (terminalIds g) [] s h x hx with hin | ⟨_, _, hm⟩
  · cases hin
  · exact hm

theorem schedule_covers {g : List Node} {fuel : Nat} {s : List String}
    (hacy : Acyclic g) (hnd : (idsOf g).Nodup)
    (h : scheduleF g fuel = some s) : ∀ x ∈ idsOf g, x ∈ s := by
  intro x hx
  obtain ⟨t, ht, hterm, hrtg⟩ := exists_terminal hacy hnd hx
  have htid : t.id ∈ terminalIds g := by
    rw [terminalIds]
    refine List.mem_map.mpr ⟨t, List.mem_filter.mpr ⟨ht, ?_⟩, rfl⟩
    exact decide_eq_true hterm
  obtain ⟨a, a', hPa, hcall, hpre⟩ :=
    runList_calls (P := fun l => ClosedOrdered g l ∧ l.Nodup)
      (fun p a a' => topoF_extends fuel p a a')
      (fun p a a' hpa ha => topoF_invariant hacy fuel p a a' hpa ha)
      (terminalIds g) [] s h ⟨closedOrdered_nil g, List.nodup_nil⟩ t.id htid
  exact hpre.subset (topoF_covers hacy fuel t.id a a' hcall hPa.1 hPa.2 x hrtg)

/-- C2: for an acyclic registry, a completed traversal from all terminal
ids yields a schedule containing exactly the registered model ids, each
exactly once.  (The fuel-indexed `some` hypothesis expresses that the
unbounded Rust recursion terminated.) -/
theorem schedule_covers_registry :
    ∀ (g : List Node) (fuel : Nat) (s : List String),
      Acyclic g → (idsOf g).Nodup → scheduleF g fuel = some s →
      (∀ x, x ∈ s ↔ x ∈ idsOf g) ∧ s.Nodup := by
  intro g fuel s hacy hnd h
  exact ⟨fun x => ⟨schedule_subset_ids h x, schedule_covers hacy hnd h x⟩,
    (schedule_inv hacy h).2⟩

/-- C1: for an acyclic registry with registered models `m` and `p`,
`p ∈ m.depends_on`, a completed schedule places `p` strictly before
`m`. -/
theorem schedule_respects_dependencies :
    ∀ (g : List Node) (fuel : Nat) (s : List String) (m : Node) (p : String),
      Acyclic g → (idsOf g).Nodup → scheduleF g fuel = some s →
      m ∈ g → p ∈ m.prevs → p ∈ idsOf g →
      s.Nodup ∧ ∃ l₁ l₂, s = l₁ ++ m.id :: l₂ ∧ p ∈ l₁ := by
  intro g fuel s m p hacy hnd h hm hp _
  obtain ⟨hco, hnds⟩ := schedule_inv hacy h
  have hmid : m.id ∈ s :=
    schedule_covers hacy hnd h m.id (List.mem_map.mpr ⟨m, hm, rfl⟩)
  obtain ⟨l₁, l₂, hs⟩ := List.append_of_mem hmid
  refine ⟨hnds, l₁, l₂, hs, ?_⟩
  have hp' : p ∈ prevsOf g m.id := by
    rw [prevsOf_eq_of_findNode (findNode_of_mem_nodup hnd hm)]
    exact hp
  exact hco l₁ m.id l₂ hs p hp'

theorem dep_spec {g : List Node} {m p : String} (h : Dep g m p) :
    ∃ n ∈ g, n.id = m ∧ p ∈ n.prevs := by
  rw [Dep] at h
  cases hf : findNode g m with
  | none => simp [prevsOf, hf] at h
  | some n =>
    obtain ⟨hm, hid⟩ := findNode_mem hf
    rw [prevsOf, hf] at h
    exact ⟨n, hm, hid, h⟩

theorem acyclic_of_rank {g : List Node} (rank : String → Nat)
    (h : ∀ m p, Dep g m p → rank p < rank m) : Acyclic g := by
  have ht : ∀ a b, Relation.TransGen (Dep g) a b → rank b < rank a := by
    intro a b htg
    induction htg with
    | single hd => exact h _ _ hd
    | tail _ hd ih => exact lt_trans (h _ _ hd) ih
  intro i hti
  exact absurd (ht i i hti) (lt_irrefl _)

theorem gAB_acyclic : Acyclic gAB := by
  apply acyclic_of_rank (fun s => if s = "b" then 1 else 0)
  intro m p hd
  obtain ⟨n, hn, rfl, hp⟩ := dep_spec hd
  simp only [gAB, List.mem_cons, List.mem_singleton, List.not_mem_nil, or_false]
    at hn
  rcases hn with rfl | rfl
  · simp [nodeA] at hp
  · simp only [nodeB, List.mem_singleton] at hp
    subst hp
    decide

theorem schedule_respects_dependencies_witness :
    Acyclic gAB ∧ (idsOf gAB).Nodup ∧ scheduleF gAB 5 = some ["a", "b"] ∧
      (["a", "b"].Nodup ∧
        ∃ l₁ l₂, ["a", "b"] = l₁ ++ "b" :: l₂ ∧ "a" ∈ l₁) :=
  ⟨gAB_acyclic, by decide, by decide,
    schedule_respects_dependencies gAB 5 ["a", "b"] nodeB "a" gAB_acyclic
      (by decide) (by decide) (by decide) (by decide) (by decide)⟩

theorem schedule_covers_registry_witness :
    Acyclic gAB ∧ (idsOf gAB).Nodup ∧ scheduleF gAB 5 = some ["a", "b"] ∧
      ((∀ x, x ∈ ["a", "b"] ↔ x ∈ idsOf gAB) ∧ ["a", "b"].Nodup) :=
  ⟨gAB_acyclic, by decide, by decide,
    schedule_covers_registry gAB 5 ["a", "b"] gAB_acyclic (by decide) (by decide)⟩

/-! ## Termination of the scheduler on acyclic registries.

These results show the `some`-result hypotheses of the C1/C2 theorems are
satisfiable in general and not only on the concrete witnesses: on an
acyclic registry all of whose `prevs` entries are registered (which the
discovery phase guarantees, see C7), any fuel exceeding the registry size
makes the traversal complete. -/

theorem dep_right_mem_ids {g : List Node}
    (hreg : ∀ n ∈ g, ∀ p ∈ n.prevs, p ∈ idsOf g) {z w : String}
    (h : Dep g z w) : w ∈ idsOf g := by
  obtain ⟨n, hn, _, hp⟩ := dep_spec h
  exact hreg n hn w hp

theorem descSet_subset (g : List Node) (x : String) (hx : x ∈ idsOf g)
    (hreg : ∀ n ∈ g, ∀ p ∈ n.prevs, p ∈ idsOf g) :
    DescSet g x ⊆ {z | z ∈ idsOf g} := by
  intro z hz
  rcases Relation.ReflTransGen.cases_tail hz with heq | ⟨c, _, hcz⟩
  · subst heq
    exact hx
  · exact dep_right_mem_ids hreg hcz

theorem descSet_finite (g : List Node) (x : String) (hx : x ∈ idsOf g)
    (hreg : ∀ n ∈ g, ∀ p ∈ n.prevs, p ∈ idsOf g) : (DescSet g x).Finite :=
  Set.Finite.subset (List.finite_toSet (idsOf g)) (descSet_subset g x hx hreg)

theorem descSet_ssubset {g : List Node} {root p : String} (hacy : Acyclic g)
    (hdep : Dep g root p) : DescSet g p ⊂ DescSet g root := by
  rw [Set.ssubset_def]
  constructor
  · intro z hz
    exact Relation.ReflTransGen.head hdep hz
  · intro hsub
    exact hacy root (Relation.TransGen.head' hdep (hsub Relation.ReflTransGen.refl))

theorem topoF_total {g : List Node} (hacy : Acyclic g)
    (hreg : ∀ n ∈ g, ∀ p ∈ n.prevs, p ∈ idsOf g) :
    ∀ (fuel : Nat) (root : String) (out : List String), root ∈ idsOf g →
      (DescSet g root).ncard < fuel →
      ∃ out', topoF g fuel root out = some out' := by
  intro fuel
  induction fuel with
  | zero => intro root out _ h; omega
  | succ fuel ih =>
    intro root out hroot hcard
    by_cases hr : root ∈ out
    · exact ⟨out, by simp [topoF, hr]⟩
    · obtain ⟨node, hf⟩ :=
        Option.isSome_iff_exists.mp (findNode_isSome_of_mem_ids hroot)
      have hps : ∀ p ∈ node.prevs, p ∈ idsOf g := hreg node (findNode_mem hf).1
      have hdepp : ∀ p ∈ node.prevs, Dep g root p := by
        intro p hp
        rw [Dep, prevsOf_eq_of_findNode hf]
        exact hp
      have hrun : ∀ (ps : List String), (∀ p ∈ ps, p ∈ node.prevs) →
          ∀ acc, ∃ o, runList (topoF g fuel) ps acc = some o := by
        intro ps
        induction ps with
        | nil => intro _ acc; exact ⟨acc, rfl⟩
        | cons p ps ihp =>
          intro hsub acc
          have hp := hsub p (List.mem_cons_self p ps)
          have hcardp : (DescSet g p).ncard < fuel := by
            have hss := descSet_ssubset hacy (hdepp p hp)
            have := Set.ncard_lt_ncard hss (descSet_finite g root hroot hreg)
            omega
          obtain ⟨o1, ho1⟩ := ih p acc (hps p hp) hcardp
          obtain ⟨o2, ho2⟩ :=
            ihp (fun q hq => hsub q (List.mem_cons_of_mem p hq)) o1
          exact ⟨o2, by simp [runList, ho1, ho2]⟩
      obtain ⟨o, ho⟩ := hrun node.prevs (fun _ hp => hp) out
      exact ⟨o ++ [root], by simp [topoF, hr, hf, ho]⟩

theorem scheduleF_total {g : List Node} (hacy : Acyclic g)
    (hreg : ∀ n ∈ g, ∀ p ∈ n.prevs, p ∈ idsOf g) :
    ∀ fuel, (idsOf g).length < fuel → ∃ s, scheduleF g fuel = some s := by
  intro fuel hfuel
  have hterm_sub : ∀ t ∈ terminalIds g, t ∈ idsOf g := by
    intro t ht
    rw [terminalIds] at ht
    obtain ⟨n, hn, rfl⟩ := List.mem_map.mp ht
    exact List.mem_map.mpr ⟨n, (List.mem_filter.mp hn).1, rfl⟩
  have hcard : ∀ root ∈ idsOf g, (DescSet g root).ncard < fuel := by
    intro root hroot
    have hle : (DescSet g root).ncard ≤ (idsOf g).length := by
      calc (DescSet g root).ncard
          ≤ ({z | z ∈ idsOf g} : Set String).ncard :=
            Set.ncard_le_ncard (descSet_subset g root hroot hreg)
              (List.finite_toSet (idsOf g))
        _ = (idsOf g).toFinset.card := by
            rw [← List.coe_toFinset]
            exact Set.ncard_coe_Finset _
        _ ≤ (idsOf g).length := (idsOf g).toFinset_card_le
    omega
  have hrun : ∀ (ps : List String), (∀ p ∈ ps, p ∈ idsOf g) →
      ∀ acc, ∃ o, runList (topoF g fuel) ps acc = some o := by
    intro ps
    induction ps with
    | nil => intro _ acc; exact ⟨acc, rfl⟩
    | cons p ps ihp =>
      intro hsub acc
      have hp := hsub p (List.mem_cons_self p ps)
      obtain ⟨o1, ho1⟩ := topoF_total hacy hreg fuel p acc hp (hcard p hp)
      obtain ⟨o2, ho2⟩ :=
        ihp (fun q hq => hsub q (List.mem_cons_of_mem p hq)) o1
      exact ⟨o2, by simp [runList, ho1, ho2]⟩
  exact hrun (terminalIds g) hterm_sub []

end Arnab
